import Mathlib

/-!
Verification of the syntax-highlighting library (`src/index.ts`).

The program classifies lexical tokens of a JavaScript source snippet into
semantic categories, re-splits template-literal tokens, and wraps each
styled fragment in terminal escape codes.  Strings are modelled as
`List Char`; the external collaborators (the `js-tokens` tokenizer, the
`@babel/helper-validator-identifier` predicates, the `kleur` style library)
are modelled abstractly: the tokenizer output is passed in explicitly as a
list of raw tokens, the identifier predicates and the lowercase conversion
are fields of an environment record, and the style library is a concrete
model of escape-code wrapping controlled by an `enabled` flag.
-/

namespace Highlight

/-- Raw token kinds produced by the external tokenizer (`js-tokens` with
`jsx: true`). -/
inductive RawKind where
  | IdentifierName
  | PrivateIdentifier
  | NumericLiteral
  | StringLiteral
  | NoSubstitutionTemplate
  | TemplateHead
  | TemplateMiddle
  | TemplateTail
  | RegularExpressionLiteral
  | Punctuator
  | MultiLineComment
  | SingleLineComment
  | HashbangComment
  | WhiteSpace
  | LineTerminatorSequence
  | Invalid
  | JSXString
  | JSXText
  | JSXIdentifier
  | JSXPunctuator
  | JSXInvalid
  deriving DecidableEq, Repr

/-- A raw lexical token: kind plus the substring of the source it covers. -/
structure RawToken where
  kind : RawKind
  value : List Char
  deriving DecidableEq, Repr

/-- Semantic categories (`InternalTokenType` plus the `"uncolored"`
sentinel from the `Token` type of the source). -/
inductive TokenType where
  | keyword
  | capitalized
  | jsxIdentifier
  | punctuator
  | number
  | string
  | regex
  | comment
  | invalid
  | uncolored
  deriving DecidableEq, Repr

/-- A normalized token: semantic category plus text, as produced by
`tokenize`. -/
structure Token where
  type : TokenType
  value : List Char
  deriving DecidableEq, Repr

/-- The external collaborators used by the classifier: the two
identifier-classification predicates imported from
`@babel/helper-validator-identifier` and the JavaScript
`String.prototype.toLowerCase` conversion applied to a one-character
string. -/
structure Env where
  isKeyword : List Char → Bool
  isStrictReservedWord : List Char → Bool → Bool
  toLower : Char → Char

/-- A concrete environment instance (all predicates false, ASCII
lowercasing); used to instantiate universally quantified statements. -/
def envNone : Env :=
  { isKeyword := fun _ => false
    isStrictReservedWord := fun _ _ => false
    toLower := Char.toLower }

/-- Definition `const sometimesKeywords = new Set(["as", "async", "from", "get", "of",
"set"])` from the source.  `target` is deliberately omitted. -/
def sometimesKeywords : List (List Char) :=
  ["as", "async", "from", "get", "of", "set"].map String.toList

/-- The regular expression `BRACKET = /^[()[\]{}]$/` from the source: the
text is exactly one of the six bracket characters. -/
def bracketTest (v : List Char) : Bool :=
  match v with
  | [c] => c ∈ ['(', ')', '[', ']', '{', '}']
  | _ => false

/-- The part of `getTokenType` after the `IdentifierName` block: the
`Punctuator`/bracket check, the `Invalid`/`@` check and the generic
`switch` on the token kind. -/
def getTokenTypeRest (t : RawToken) : TokenType :=
  if t.kind = RawKind.Punctuator ∧ bracketTest t.value then
    TokenType.uncolored
  else if t.kind = RawKind.Invalid ∧ t.value = ['@'] then
    TokenType.punctuator
  else
    match t.kind with
    | RawKind.NumericLiteral => TokenType.number
    | RawKind.StringLiteral => TokenType.string
    | RawKind.JSXString => TokenType.string
    | RawKind.NoSubstitutionTemplate => TokenType.string
    | RawKind.RegularExpressionLiteral => TokenType.regex
    | RawKind.Punctuator => TokenType.punctuator
    | RawKind.JSXPunctuator => TokenType.punctuator
    | RawKind.MultiLineComment => TokenType.comment
    | RawKind.SingleLineComment => TokenType.comment
    | RawKind.Invalid => TokenType.invalid
    | RawKind.JSXInvalid => TokenType.invalid
    | RawKind.JSXIdentifier => TokenType.jsxIdentifier
    | _ => TokenType.uncolored

/-- Definition `getTokenType` from the source.  For an `IdentifierName` token it first
checks `isKeyword`, `isStrictReservedWord(·, true)` and the
`sometimesKeywords` set; then it compares the first character with its
lowercase conversion.  On an empty `IdentifierName` text the JavaScript
code would throw a `TypeError` (`token.value[0]` is `undefined`), which is
modelled as `none`; every other case returns `some` category. -/
def getTokenType (env : Env) (t : RawToken) : Option TokenType :=
  if t.kind = RawKind.IdentifierName then
    if env.isKeyword t.value || env.isStrictReservedWord t.value true ||
        sometimesKeywords.contains t.value then
      some TokenType.keyword
    else
      match t.value with
      | [] => none
      | c :: _ =>
        if ¬ (c = env.toLower c) then some TokenType.capitalized
        else some (getTokenTypeRest t)
  else
    some (getTokenTypeRest t)

/-- One step of the `tokenize` generator: the `switch` body for a single
raw token.  Template heads, middles and tails are re-split into string and
synthetic punctuator fragments (`slice(0, -2)`, `slice(1, -2)`,
`slice(1)`); every other token is classified and passed through. -/
def tokenizeTok (env : Env) (t : RawToken) : Option (List Token) :=
  match t.kind with
  | RawKind.TemplateHead =>
    some [{ type := TokenType.string, value := t.value.take (t.value.length - 2) },
          { type := TokenType.punctuator, value := ['$', '{'] }]
  | RawKind.TemplateMiddle =>
    some [{ type := TokenType.punctuator, value := ['}'] },
          { type := TokenType.string,
            value := (t.value.drop 1).take (t.value.length - 3) },
          { type := TokenType.punctuator, value := ['$', '{'] }]
  | RawKind.TemplateTail =>
    some [{ type := TokenType.punctuator, value := ['}'] },
          { type := TokenType.string, value := t.value.drop 1 }]
  | _ =>
    (getTokenType env t).map fun ty => [{ type := ty, value := t.value }]

/-- Definition `tokenize` from the source, with the output of the external
tokenizer for
the input text passed in explicitly as `raw`.  A `none` result models the
classifier throwing. -/
def tokenize (env : Env) : List RawToken → Option (List Token)
  | [] => some []
  | t :: rest => do
    let ts ← tokenizeTok env t
    let rest2 ← tokenize env rest
    pure (ts ++ rest2)

/-- Whether a character starts a newline-like boundary of the `NEWLINE`
regular expression `/\r\n|[\n\r \u2028 \u2029]/ (U+2028, U+2029)`. -/
def isNewlineChar (c : Char) : Bool :=
  c = '\n' || c = '\r' || c = '\u2028' || c = '\u2029'

/-- JavaScript `value.split(NEWLINE)` with
`NEWLINE = /\r\n|[\n\r \u2028 \u2029]/ (U+2028, U+2029)`: split on `\r\n` pairs and on lone
newline-like characters, keeping empty segments (as `String.prototype.split`
does). -/
def splitNewlines : List Char → List (List Char)
  | [] => [[]]
  | '\r' :: '\n' :: rest => [] :: splitNewlines rest
  | '\n' :: rest => [] :: splitNewlines rest
  | '\r' :: rest => [] :: splitNewlines rest
  | '\u2028' :: rest => [] :: splitNewlines rest
  | '\u2029' :: rest => [] :: splitNewlines rest
  | c :: rest =>
    match splitNewlines rest with
    | [] => [[c]]
    | s :: ss => (c :: s) :: ss

/-- JavaScript `Array.prototype.join("\n")` on a list of strings. -/
def joinWithNewline : List (List Char) → List Char
  | [] => []
  | [s] => s
  | s :: rest => s ++ '\n' :: joinWithNewline rest

/-- An ANSI escape sequence `ESC [ digits m` as used by the style
library. -/
def ansiCode (digits : List Char) : List Char :=
  '\x1b' :: '[' :: (digits ++ ['m'])

/-- A style of the external color library: a list of open codes and the
matching list of close codes (several, for chained styles). -/
structure KStyle where
  opens : List (List Char)
  closes : List (List Char)
  deriving Repr

/-- Modelled from the spec: the external style library exposes, per
category, a function from string to styled string (chaining supported) and
a process-wide `enabled` flag; when enabled, a style function wraps the
text in its open and close escape codes, and when disabled it returns the
text unchanged.  The flag value in force while rendering runs is passed as
`enabled`. -/
def runStyle (st : KStyle) (enabled : Bool) (s : List Char) : List Char :=
  if enabled then
    (st.opens.map ansiCode).flatten ++ s ++ (st.closes.map ansiCode).flatten
  else s

/-- Escape codes of `kleur.cyan`. -/
def kcyan : KStyle := { opens := [['3', '6']], closes := [['3', '9']] }

/-- Escape codes of `kleur.yellow`. -/
def kyellow : KStyle := { opens := [['3', '3']], closes := [['3', '9']] }

/-- Escape codes of `kleur.magenta`. -/
def kmagenta : KStyle := { opens := [['3', '5']], closes := [['3', '9']] }

/-- Escape codes of `kleur.green`. -/
def kgreen : KStyle := { opens := [['3', '2']], closes := [['3', '9']] }

/-- Escape codes of `kleur.grey`. -/
def kgrey : KStyle := { opens := [['9', '0']], closes := [['3', '9']] }

/-- Escape codes of `kleur.white().bgRed().bold` (chained). -/
def kinvalid : KStyle :=
  { opens := [['3', '7'], ['4', '1'], ['1']]
    closes := [['3', '9'], ['4', '9'], ['2', '2']] }

/-- Definition `getDefs` from the source: the record mapping each of the nine internal
token types to its kleur style function; looking up `"uncolored"` misses
(`undefined`), modelled as `none`.  `enabled` is the library flag in force
while the returned functions are called. -/
def getDefs (enabled : Bool) : TokenType → Option (List Char → List Char)
  | TokenType.keyword => some (runStyle kcyan enabled)
  | TokenType.capitalized => some (runStyle kyellow enabled)
  | TokenType.jsxIdentifier => some (runStyle kyellow enabled)
  | TokenType.punctuator => some (runStyle kyellow enabled)
  | TokenType.number => some (runStyle kmagenta enabled)
  | TokenType.string => some (runStyle kgreen enabled)
  | TokenType.regex => some (runStyle kmagenta enabled)
  | TokenType.comment => some (runStyle kgrey enabled)
  | TokenType.invalid => some (runStyle kinvalid enabled)
  | TokenType.uncolored => none

/-- The loop body of `highlightTokens` for one normalized token: if the
category has a style, split the text on newlines, style each segment and
rejoin with `"\n"`; otherwise append the text unchanged. -/
def renderToken (defs : TokenType → Option (List Char → List Char))
    (t : Token) : List Char :=
  match defs t.type with
  | some colorize => joinWithNewline ((splitNewlines t.value).map colorize)
  | none => t.value

/-- Definition `highlightTokens` from the source, with the raw tokenizer output
passed in as `raw`; accumulates the rendered fragments in order. -/
def highlightTokens (defs : TokenType → Option (List Char → List Char))
    (env : Env) (raw : List RawToken) : Option (List Char) :=
  (tokenize env raw).map fun toks => (toks.map (renderToken defs)).flatten

/-- The exported `highlight(code, options)` entry point.  `raw` stands for
the tokenizer output on `code`, `kleurEnabled` is the flag of the color
library
global flag before the call; the returned pair is the result (with `none`
modelling a propagated exception) and the flag after the call.  In the
`forceColor` branch the flag is saved, set to `true` for the render (hence
`getDefs true`), and restored in a `finally` block on both the normal and
the throwing path. -/
def highlight (env : Env) (raw : List RawToken) (code : List Char)
    (forceColor : Bool) (kleurEnabled : Bool) :
    Option (List Char) × Bool :=
  if code = [] then
    (some code, kleurEnabled)
  else if forceColor then
    let kleurEnabledBefore := kleurEnabled
    let result := highlightTokens (getDefs true) env raw
    (result, kleurEnabledBefore)
  else if kleurEnabled then
    (highlightTokens (getDefs kleurEnabled) env raw, kleurEnabled)
  else
    (some code, kleurEnabled)

/-- Concatenation of the raw substrings of a token list; the tokenizer
contract says this reconstructs the source text. -/
def concatValues (raw : List RawToken) : List Char :=
  (raw.map RawToken.value).flatten

/-- Concatenation of the texts of a normalized token list. -/
def concatToks (toks : List Token) : List Char :=
  (toks.map Token.value).flatten

/-- Remove terminal escape sequences: outside a sequence (`false`) an ESC
character switches to skipping mode, inside a sequence (`true`) characters
are dropped up to and including the terminating `m`. -/
def stripAnsiAux : Bool → List Char → List Char
  | _, [] => []
  | true, c :: rest =>
    if c = 'm' then stripAnsiAux false rest else stripAnsiAux true rest
  | false, c :: rest =>
    if c = '\x1b' then stripAnsiAux true rest else c :: stripAnsiAux false rest

/-- Remove all terminal escape sequences from a string. -/
def stripAnsi (s : List Char) : List Char :=
  stripAnsiAux false s

/-- The effect of the renderer split/style/rejoin step on the plain text:
every newline-like boundary is replaced by a single `\n`. -/
def normalizeNewlines (s : List Char) : List Char :=
  joinWithNewline (splitNewlines s)

/-- The text has no carriage returns, line separators or paragraph
separators; its only newline-like boundaries are plain `\n` characters. -/
def onlyLF (s : List Char) : Prop :=
  ∀ c ∈ s, c ≠ '\r' ∧ c ≠ '\u2028' ∧ c ≠ '\u2029'

instance (s : List Char) : Decidable (onlyLF s) := by
  unfold onlyLF; infer_instance

/-- The shape the external tokenizer guarantees for template tokens: a
head token ends with the two characters dollar/open-brace, a middle token
starts with a close brace and ends with dollar/open-brace, a tail token
starts with a close brace. -/
def templateShapeOK (t : RawToken) : Prop :=
  match t.kind with
  | RawKind.TemplateHead => t.value.drop (t.value.length - 2) = ['$', '{']
  | RawKind.TemplateMiddle =>
    t.value.take 1 = ['}'] ∧ t.value.drop (t.value.length - 2) = ['$', '{']
  | RawKind.TemplateTail => t.value.take 1 = ['}']
  | _ => True

instance (t : RawToken) : Decidable (templateShapeOK t) := by
  unfold templateShapeOK; cases t.kind <;> infer_instance

/-- The plain text a single normalized token contributes to the stripped
output: styled categories go through the newline normalization, the
`uncolored` sentinel passes through unchanged. -/
def strippedTok (tok : Token) : List Char :=
  if tok.type = TokenType.uncolored then tok.value
  else normalizeNewlines tok.value

/-- A style whose escape codes are well formed: no digit list contains the
terminating character `m`. -/
def goodStyle (k : KStyle) : Prop :=
  (∀ d ∈ k.opens, 'm' ∉ d) ∧ (∀ d ∈ k.closes, 'm' ∉ d)

instance (k : KStyle) : Decidable (goodStyle k) := by
  unfold goodStyle; infer_instance

end Highlight
namespace Highlight

theorem splitNewlines_ne_nil (v : List Char) : splitNewlines v ≠ [] := by
  induction v using splitNewlines.induct <;> simp_all [splitNewlines]

theorem splitNewlines_lf (rest : List Char) :
    splitNewlines ('\n' :: rest) = [] :: splitNewlines rest := rfl

theorem splitNewlines_crlf (rest : List Char) :
    splitNewlines ('\r' :: '\n' :: rest) = [] :: splitNewlines rest := rfl

theorem splitNewlines_ls (rest : List Char) :
    splitNewlines ('\u2028' :: rest) = [] :: splitNewlines rest := rfl

theorem splitNewlines_ps (rest : List Char) :
    splitNewlines ('\u2029' :: rest) = [] :: splitNewlines rest := rfl

theorem splitNewlines_cr {rest : List Char} (h : ∀ r, rest ≠ '\n' :: r) :
    splitNewlines ('\r' :: rest) = [] :: splitNewlines rest := by
  cases rest with
  | nil => rfl
  | cons c2 r2 =>
    by_cases h2 : c2 = '\n'
    · exact absurd (by rw [h2]) (h r2)
    · rw [splitNewlines.eq_def]
      simp [h2]

theorem splitNewlines_cons_not_newline {c : Char} (hc : isNewlineChar c = false)
    (rest : List Char) :
    splitNewlines (c :: rest) =
      match splitNewlines rest with
      | [] => [[c]]
      | s :: ss => (c :: s) :: ss := by
  simp only [isNewlineChar, Bool.or_eq_false_iff, decide_eq_false_iff_not] at hc
  obtain ⟨⟨⟨h1, h2⟩, h3⟩, h4⟩ := hc
  rw [splitNewlines.eq_def]
  cases rest with
  | nil => simp [h1, h2, h3, h4, splitNewlines]
  | cons c2 r2 => simp [h1, h2, h3, h4]

end Highlight

namespace Highlight

theorem isNewlineChar_false_of_neg {c : Char} (h1 : c = '\n' → False)
    (h2 : c = '\r' → False) (h3 : c = '\u2028' → False)
    (h4 : c = '\u2029' → False) : isNewlineChar c = false := by
  simp only [isNewlineChar, Bool.or_eq_false_iff, decide_eq_false_iff_not]
  exact ⟨⟨⟨h1, h2⟩, h3⟩, h4⟩

theorem mem_of_mem_splitNewlines {c : Char} :
    ∀ {v seg : List Char}, seg ∈ splitNewlines v → c ∈ seg → c ∈ v := by
  intro v
  induction v using splitNewlines.induct with
  | case1 =>
    intro seg h hc
    simp only [splitNewlines, List.mem_singleton] at h
    subst h; simp at hc
  | case2 rest ih =>
    intro seg h hc
    rw [splitNewlines_crlf, List.mem_cons] at h
    rcases h with h | h
    · subst h; simp at hc
    · have := ih h hc; simp [this]
  | case3 rest ih =>
    intro seg h hc
    rw [splitNewlines_lf, List.mem_cons] at h
    rcases h with h | h
    · subst h; simp at hc
    · have := ih h hc; simp [this]
  | case4 rest hne ih =>
    intro seg h hc
    rw [splitNewlines_cr (fun r hr => hne r hr), List.mem_cons] at h
    rcases h with h | h
    · subst h; simp at hc
    · have := ih h hc; simp [this]
  | case5 rest ih =>
    intro seg h hc
    rw [splitNewlines_ls, List.mem_cons] at h
    rcases h with h | h
    · subst h; simp at hc
    · have := ih h hc; simp [this]
  | case6 rest ih =>
    intro seg h hc
    rw [splitNewlines_ps, List.mem_cons] at h
    rcases h with h | h
    · subst h; simp at hc
    · have := ih h hc; simp [this]
  | case7 c0 rest hcr h1 h2 h3 h4 hnil ih =>
    exact absurd hnil (splitNewlines_ne_nil rest)
  | case8 c0 rest hcr h1 h2 h3 h4 s ss hss ih =>
    intro seg h hc
    have hcnl : isNewlineChar c0 = false :=
      isNewlineChar_false_of_neg h1 h2 h3 h4
    rw [splitNewlines_cons_not_newline hcnl, hss] at h
    simp only [List.mem_cons] at h
    rcases h with h | h
    · subst h
      rcases List.mem_cons.mp hc with hc | hc
      · simp [hc]
      · have := ih (by rw [hss]; exact List.mem_cons_self s ss) hc
        simp [this]
    · have := ih (by rw [hss]; exact List.mem_cons_of_mem s h) hc
      simp [this]

end Highlight
namespace Highlight

theorem not_newline_of_mem_splitNewlines :
    ∀ {v seg : List Char}, seg ∈ splitNewlines v →
      ∀ c ∈ seg, isNewlineChar c = false := by
  intro v
  induction v using splitNewlines.induct with
  | case1 =>
    intro seg h
    simp only [splitNewlines, List.mem_singleton] at h
    subst h; simp
  | case2 rest ih =>
    intro seg h
    rw [splitNewlines_crlf, List.mem_cons] at h
    rcases h with h | h
    · subst h; simp
    · exact ih h
  | case3 rest ih =>
    intro seg h
    rw [splitNewlines_lf, List.mem_cons] at h
    rcases h with h | h
    · subst h; simp
    · exact ih h
  | case4 rest hne ih =>
    intro seg h
    rw [splitNewlines_cr (fun r hr => hne r hr), List.mem_cons] at h
    rcases h with h | h
    · subst h; simp
    · exact ih h
  | case5 rest ih =>
    intro seg h
    rw [splitNewlines_ls, List.mem_cons] at h
    rcases h with h | h
    · subst h; simp
    · exact ih h
  | case6 rest ih =>
    intro seg h
    rw [splitNewlines_ps, List.mem_cons] at h
    rcases h with h | h
    · subst h; simp
    · exact ih h
  | case7 c0 rest hcr h1 h2 h3 h4 hnil ih =>
    exact absurd hnil (splitNewlines_ne_nil rest)
  | case8 c0 rest hcr h1 h2 h3 h4 s ss hss ih =>
    intro seg h c hc
    have hcnl : isNewlineChar c0 = false :=
      isNewlineChar_false_of_neg h1 h2 h3 h4
    rw [splitNewlines_cons_not_newline hcnl, hss] at h
    simp only [List.mem_cons] at h
    rcases h with h | h
    · subst h
      rcases List.mem_cons.mp hc with hc | hc
      · subst hc; exact hcnl
      · exact ih (by rw [hss]; exact List.mem_cons_self s ss) c hc
    · exact ih (by rw [hss]; exact List.mem_cons_of_mem s h) c hc

theorem joinWithNewline_cons_of_ne_nil {ss : List (List Char)} (h : ss ≠ [])
    (s : List Char) : joinWithNewline (s :: ss) = s ++ '\n' :: joinWithNewline ss := by
  cases ss with
  | nil => exact absurd rfl h
  | cons a as => rfl

theorem joinWithNewline_cons_head (c : Char) (s : List Char)
    (ss : List (List Char)) :
    joinWithNewline ((c :: s) :: ss) = c :: joinWithNewline (s :: ss) := by
  cases ss with
  | nil => rfl
  | cons a as => rfl

theorem onlyLF_of_cons {c : Char} {rest : List Char} (h : onlyLF (c :: rest)) :
    onlyLF rest := fun x hx => h x (List.mem_cons_of_mem c hx)

theorem normalizeNewlines_of_onlyLF : ∀ {v : List Char}, onlyLF v →
    normalizeNewlines v = v := by
  intro v
  induction v using splitNewlines.induct with
  | case1 => intro _; rfl
  | case2 rest ih =>
    intro h
    exact absurd ((h '\r' (by simp)).1 rfl) id
  | case3 rest ih =>
    intro h
    unfold normalizeNewlines at ih ⊢
    rw [splitNewlines_lf]
    obtain ⟨s, ss, hss⟩ : ∃ s ss, splitNewlines rest = s :: ss := by
      cases hsplit : splitNewlines rest with
      | nil => exact absurd hsplit (splitNewlines_ne_nil rest)
      | cons a as => exact ⟨a, as, rfl⟩
    rw [hss]
    rw [joinWithNewline_cons_of_ne_nil (by simp)]
    simp only [List.nil_append]
    rw [← hss, ih (onlyLF_of_cons h)]
  | case4 rest hne ih =>
    intro h
    exact absurd ((h '\r' (by simp)).1 rfl) id
  | case5 rest ih =>
    intro h
    exact absurd ((h '\u2028' (by simp)).2.1 rfl) id
  | case6 rest ih =>
    intro h
    exact absurd ((h '\u2029' (by simp)).2.2 rfl) id
  | case7 c0 rest hcr h1 h2 h3 h4 hnil ih =>
    exact absurd hnil (splitNewlines_ne_nil rest)
  | case8 c0 rest hcr h1 h2 h3 h4 s ss hss ih =>
    intro h
    have hcnl : isNewlineChar c0 = false :=
      isNewlineChar_false_of_neg h1 h2 h3 h4
    unfold normalizeNewlines at ih ⊢
    rw [splitNewlines_cons_not_newline hcnl, hss]
    show joinWithNewline ((c0 :: s) :: ss) = c0 :: rest
    rw [joinWithNewline_cons_head, ← hss, ih (onlyLF_of_cons h)]

end Highlight
namespace Highlight

theorem stripAnsiAux_false_nil : stripAnsiAux false [] = [] := rfl

theorem stripAnsiAux_false_append {s : List Char} (h : '\x1b' ∉ s)
    (t : List Char) : stripAnsiAux false (s ++ t) = s ++ stripAnsiAux false t := by
  induction s with
  | nil => rfl
  | cons c cs ih =>
    simp only [List.mem_cons, not_or] at h
    simp only [List.cons_append, stripAnsiAux]
    rw [if_neg (fun hc => h.1 hc.symm), List.append_eq, ih h.2]
theorem stripAnsiAux_true_skip {d : List Char} (h : 'm' ∉ d) (t : List Char) :
    stripAnsiAux true (d ++ 'm' :: t) = stripAnsiAux false t := by
  induction d with
  | nil => simp [stripAnsiAux]
  | cons c cs ih =>
    simp only [List.mem_cons, not_or] at h
    simp only [List.cons_append, stripAnsiAux]
    rw [if_neg (fun hc => h.1 hc.symm), List.append_eq, ih h.2]

theorem stripAnsiAux_ansiCode {d : List Char} (h : 'm' ∉ d) (t : List Char) :
    stripAnsiAux false (ansiCode d ++ t) = stripAnsiAux false t := by
  show stripAnsiAux false (('\x1b' :: '[' :: (d ++ ['m'])) ++ t) = _
  rw [show ('\x1b' :: '[' :: (d ++ ['m'])) ++ t
      = '\x1b' :: (('[' :: d) ++ 'm' :: t) by simp]
  rw [show stripAnsiAux false ('\x1b' :: (('[' :: d) ++ 'm' :: t))
      = stripAnsiAux true (('[' :: d) ++ 'm' :: t) from by simp [stripAnsiAux]]
  exact stripAnsiAux_true_skip
    (by simp only [List.mem_cons, not_or]; exact ⟨by decide, h⟩) t

theorem stripAnsiAux_codes {ds : List (List Char)} (h : ∀ d ∈ ds, 'm' ∉ d)
    (t : List Char) :
    stripAnsiAux false ((ds.map ansiCode).flatten ++ t) = stripAnsiAux false t := by
  induction ds with
  | nil => simp
  | cons d rest ih =>
    simp only [List.map_cons, List.flatten_cons, List.append_assoc]
    rw [stripAnsiAux_ansiCode (h d (List.mem_cons_self d rest))]
    exact ih (fun x hx => h x (List.mem_cons_of_mem d hx))

theorem stripAnsiAux_runStyle {k : KStyle} (hk : goodStyle k) {s : List Char}
    (hs : '\x1b' ∉ s) (enabled : Bool) (t : List Char) :
    stripAnsiAux false (runStyle k enabled s ++ t) = s ++ stripAnsiAux false t := by
  cases enabled with
  | false => exact stripAnsiAux_false_append hs t
  | true =>
    show stripAnsiAux false
      (((k.opens.map ansiCode).flatten ++ s ++ (k.closes.map ansiCode).flatten) ++ t) = _
    rw [List.append_assoc, List.append_assoc]
    rw [stripAnsiAux_codes hk.1]
    rw [stripAnsiAux_false_append hs]
    rw [stripAnsiAux_codes hk.2]

theorem stripAnsiAux_joinStyled {k : KStyle} (hk : goodStyle k) (enabled : Bool) :
    ∀ {segs : List (List Char)}, (∀ seg ∈ segs, '\x1b' ∉ seg) → ∀ t : List Char,
    stripAnsiAux false (joinWithNewline (segs.map (runStyle k enabled)) ++ t)
      = joinWithNewline segs ++ stripAnsiAux false t := by
  intro segs
  induction segs using joinWithNewline.induct with
  | case1 => intro _ t; simp [joinWithNewline]
  | case2 s =>
    intro h t
    simp only [List.map_cons, List.map_nil]
    show stripAnsiAux false (joinWithNewline [runStyle k enabled s] ++ t) = _
    simp only [joinWithNewline]
    exact stripAnsiAux_runStyle hk (h s (by simp)) enabled t
  | case3 s rest hne ih =>
    intro h t
    have hrne : rest.map (runStyle k enabled) ≠ [] := by
      simp only [ne_eq, List.map_eq_nil_iff]
      exact fun hr => hne hr
    simp only [List.map_cons]
    rw [joinWithNewline_cons_of_ne_nil hrne]
    rw [joinWithNewline_cons_of_ne_nil (fun hr => hne hr)]
    rw [List.append_assoc, List.cons_append]
    rw [stripAnsiAux_runStyle hk (h s (by simp)) enabled]
    have : stripAnsiAux false ('\n' :: (joinWithNewline (rest.map (runStyle k enabled)) ++ t))
        = '\n' :: stripAnsiAux false (joinWithNewline (rest.map (runStyle k enabled)) ++ t) := by
      simp [stripAnsiAux]
    rw [this, ih (fun x hx => h x (List.mem_cons_of_mem s hx)) t]
    simp

end Highlight
namespace Highlight

theorem getDefs_uncolored (enabled : Bool) :
    getDefs enabled TokenType.uncolored = none := rfl

theorem getDefs_styled {ty : TokenType} (h : ty ≠ TokenType.uncolored)
    (enabled : Bool) :
    ∃ k, goodStyle k ∧ getDefs enabled ty = some (runStyle k enabled) := by
  cases ty with
  | uncolored => exact absurd rfl h
  | keyword => exact ⟨kcyan, by decide, rfl⟩
  | capitalized => exact ⟨kyellow, by decide, rfl⟩
  | jsxIdentifier => exact ⟨kyellow, by decide, rfl⟩
  | punctuator => exact ⟨kyellow, by decide, rfl⟩
  | number => exact ⟨kmagenta, by decide, rfl⟩
  | string => exact ⟨kgreen, by decide, rfl⟩
  | regex => exact ⟨kmagenta, by decide, rfl⟩
  | comment => exact ⟨kgrey, by decide, rfl⟩
  | invalid => exact ⟨kinvalid, by decide, rfl⟩

theorem strip_renderToken {tok : Token} (h : '\x1b' ∉ tok.value)
    (t : List Char) :
    stripAnsiAux false (renderToken (getDefs true) tok ++ t)
      = strippedTok tok ++ stripAnsiAux false t := by
  have hseg : ∀ seg ∈ splitNewlines tok.value, '\x1b' ∉ seg :=
    fun seg hs hc => h (mem_of_mem_splitNewlines hs hc)
  by_cases hty : tok.type = TokenType.uncolored
  · rw [show renderToken (getDefs true) tok = tok.value from by
      simp [renderToken, hty, getDefs_uncolored]]
    rw [show strippedTok tok = tok.value from by simp [strippedTok, hty]]
    exact stripAnsiAux_false_append h t
  · obtain ⟨k, hk, hdef⟩ := getDefs_styled hty true
    rw [show renderToken (getDefs true) tok
        = joinWithNewline ((splitNewlines tok.value).map (runStyle k true)) from by
      simp [renderToken, hdef]]
    rw [show strippedTok tok = normalizeNewlines tok.value from by
      simp [strippedTok, hty]]
    unfold normalizeNewlines
    exact stripAnsiAux_joinStyled hk true hseg t

theorem strip_render_flatten :
    ∀ {toks : List Token}, (∀ tok ∈ toks, '\x1b' ∉ tok.value) →
    stripAnsi ((toks.map (renderToken (getDefs true))).flatten)
      = (toks.map strippedTok).flatten := by
  intro toks
  induction toks with
  | nil => intro _; rfl
  | cons tok rest ih =>
    intro h
    simp only [List.map_cons, List.flatten_cons]
    unfold stripAnsi
    rw [strip_renderToken (h tok (List.mem_cons_self tok rest))]
    have := ih (fun x hx => h x (List.mem_cons_of_mem tok hx))
    unfold stripAnsi at this
    rw [this]

end Highlight
namespace Highlight

theorem concatToks_append (a b : List Token) :
    concatToks (a ++ b) = concatToks a ++ concatToks b := by
  simp [concatToks]

theorem tokenizeTok_concat {env : Env} {t : RawToken} {ts : List Token}
    (hshape : templateShapeOK t) (htok : tokenizeTok env t = some ts) :
    concatToks ts = t.value := by
  rcases t with ⟨kind, v⟩
  cases kind
  case TemplateHead =>
    simp only [tokenizeTok, Option.some.injEq] at htok
    subst htok
    simp only [templateShapeOK] at hshape
    simp only [concatToks, List.map_cons, List.map_nil, List.flatten_cons,
      List.flatten_nil, List.append_nil]
    conv_rhs => rw [← List.take_append_drop (v.length - 2) v]
    rw [hshape]
  case TemplateMiddle =>
    simp only [tokenizeTok, Option.some.injEq] at htok
    subst htok
    simp only [templateShapeOK] at hshape
    obtain ⟨h1, h2⟩ := hshape
    have hlen2 : (v.drop (v.length - 2)).length = 2 := by rw [h2]; rfl
    rw [List.length_drop] at hlen2
    have hge : 3 ≤ v.length ∨ v.length = 2 := by omega
    rcases hge with hge | heq2
    · simp only [concatToks, List.map_cons, List.map_nil, List.flatten_cons,
        List.flatten_nil, List.append_nil]
      have hsplit : v = v.take 1 ++ v.drop 1 := (List.take_append_drop 1 v).symm
      have hsplit2 : v.drop 1 = (v.drop 1).take (v.length - 3)
          ++ (v.drop 1).drop (v.length - 3) :=
        (List.take_append_drop (v.length - 3) (v.drop 1)).symm
      have hdd : (v.drop 1).drop (v.length - 3) = v.drop (v.length - 2) := by
        rw [List.drop_drop]
        congr 1
        omega
      conv_rhs => rw [hsplit, h1, hsplit2, hdd, h2]
    · have h0 : v.length - 2 = 0 := by omega
      rw [h0, List.drop_zero] at h2
      rw [h2] at h1
      simp at h1
  case TemplateTail =>
    simp only [tokenizeTok, Option.some.injEq] at htok
    subst htok
    simp only [templateShapeOK] at hshape
    simp only [concatToks, List.map_cons, List.map_nil, List.flatten_cons,
      List.flatten_nil, List.append_nil]
    conv_rhs => rw [← List.take_append_drop 1 v]
    rw [hshape]
  all_goals
    simp only [tokenizeTok, Option.map_eq_some'] at htok
    obtain ⟨ty, _, hts⟩ := htok
    subst hts
    simp [concatToks]

end Highlight
namespace Highlight

theorem tokenize_cons_eq_some {env : Env} {t : RawToken} {rest : List RawToken}
    {toks : List Token} (h : tokenize env (t :: rest) = some toks) :
    ∃ ts rest2, tokenizeTok env t = some ts ∧ tokenize env rest = some rest2 ∧
      toks = ts ++ rest2 := by
  simp only [tokenize, bind, Option.bind_eq_some, pure, Option.some.injEq] at h
  obtain ⟨ts, h1, rest2, h2, h3⟩ := h
  exact ⟨ts, rest2, h1, h2, h3.symm⟩

theorem tokenize_concat {env : Env} :
    ∀ {raw : List RawToken} {toks : List Token},
    (∀ t ∈ raw, templateShapeOK t) → tokenize env raw = some toks →
    concatToks toks = concatValues raw := by
  intro raw
  induction raw with
  | nil =>
    intro toks _ h
    simp only [tokenize, Option.some.injEq] at h
    subst h
    rfl
  | cons t rest ih =>
    intro toks hshape h
    obtain ⟨ts, rest2, h1, h2, h3⟩ := tokenize_cons_eq_some h
    subst h3
    rw [concatToks_append]
    rw [tokenizeTok_concat (hshape t (List.mem_cons_self t rest)) h1]
    rw [ih (fun x hx => hshape x (List.mem_cons_of_mem t hx)) h2]
    simp [concatValues]

theorem mem_tokenizeTok_chars {env : Env} {t : RawToken} {ts : List Token}
    (h : tokenizeTok env t = some ts) {tok : Token} (htok : tok ∈ ts) {c : Char}
    (hc : c ∈ tok.value) :
    c ∈ t.value ∨ c = '$' ∨ c = '{' ∨ c = '}' := by
  rcases t with ⟨kind, v⟩
  cases kind
  case TemplateHead =>
    simp only [tokenizeTok, Option.some.injEq] at h
    subst h
    simp only [List.mem_cons, List.not_mem_nil, or_false] at htok
    rcases htok with htok | htok
    · subst htok
      exact Or.inl (List.take_subset _ _ hc)
    · subst htok
      simp only [List.mem_cons, List.not_mem_nil, or_false] at hc
      rcases hc with hc | hc
      · exact Or.inr (Or.inl hc)
      · exact Or.inr (Or.inr (Or.inl hc))
  case TemplateMiddle =>
    simp only [tokenizeTok, Option.some.injEq] at h
    subst h
    simp only [List.mem_cons, List.not_mem_nil, or_false] at htok
    rcases htok with htok | htok | htok
    · subst htok
      simp only [List.mem_cons, List.not_mem_nil, or_false] at hc
      exact Or.inr (Or.inr (Or.inr hc))
    · subst htok
      exact Or.inl (List.drop_subset 1 v (List.take_subset _ _ hc))
    · subst htok
      simp only [List.mem_cons, List.not_mem_nil, or_false] at hc
      rcases hc with hc | hc
      · exact Or.inr (Or.inl hc)
      · exact Or.inr (Or.inr (Or.inl hc))
  case TemplateTail =>
    simp only [tokenizeTok, Option.some.injEq] at h
    subst h
    simp only [List.mem_cons, List.not_mem_nil, or_false] at htok
    rcases htok with htok | htok
    · subst htok
      simp only [List.mem_cons, List.not_mem_nil, or_false] at hc
      exact Or.inr (Or.inr (Or.inr hc))
    · subst htok
      exact Or.inl (List.drop_subset 1 v hc)
  all_goals
    simp only [tokenizeTok, Option.map_eq_some'] at h
    obtain ⟨ty, _, hts⟩ := h
    subst hts
    simp only [List.mem_singleton] at htok
    subst htok
    exact Or.inl hc

theorem mem_tokenize_chars {env : Env} :
    ∀ {raw : List RawToken} {toks : List Token},
    tokenize env raw = some toks → ∀ tok ∈ toks, ∀ c ∈ tok.value,
    c ∈ concatValues raw ∨ c = '$' ∨ c = '{' ∨ c = '}' := by
  intro raw
  induction raw with
  | nil =>
    intro toks h tok htok c hc
    simp only [tokenize, Option.some.injEq] at h
    subst h
    simp at htok
  | cons t rest ih =>
    intro toks h tok htok c hc
    obtain ⟨ts, rest2, h1, h2, h3⟩ := tokenize_cons_eq_some h
    subst h3
    rcases List.mem_append.mp htok with htok | htok
    · rcases mem_tokenizeTok_chars h1 htok hc with hin | hsp
      · exact Or.inl (by simp [concatValues]; exact Or.inl hin)
      · exact Or.inr hsp
    · rcases ih h2 tok htok c hc with hin | hsp
      · refine Or.inl ?_
        simp only [concatValues, List.map_cons, List.flatten_cons, List.mem_append]
        right
        simpa [concatValues] using hin
      · exact Or.inr hsp

end Highlight
namespace Highlight

theorem getTokenTypeRest_ident (v : List Char) :
    getTokenTypeRest ⟨RawKind.IdentifierName, v⟩ = TokenType.uncolored := by
  simp [getTokenTypeRest]

theorem getTokenType_ident_eq (env : Env) (v : List Char) :
    getTokenType env ⟨RawKind.IdentifierName, v⟩ =
      if (env.isKeyword v || env.isStrictReservedWord v true ||
          sometimesKeywords.contains v) = true then some TokenType.keyword
      else match v with
        | [] => none
        | c :: _ =>
          if ¬ (c = env.toLower c) then some TokenType.capitalized
          else some (getTokenTypeRest ⟨RawKind.IdentifierName, v⟩) := rfl

theorem getTokenType_ident_keyword_iff (env : Env) (v : List Char) :
    getTokenType env ⟨RawKind.IdentifierName, v⟩ = some TokenType.keyword ↔
      (env.isKeyword v || env.isStrictReservedWord v true ||
        sometimesKeywords.contains v) = true := by
  rw [getTokenType_ident_eq]
  cases hb : (env.isKeyword v || env.isStrictReservedWord v true ||
      sometimesKeywords.contains v) with
  | true => simp
  | false =>
    simp only [Bool.false_eq_true, if_false, iff_false]
    cases v with
    | nil => simp
    | cons c cs =>
      show ¬(if ¬ (c = env.toLower c) then some TokenType.capitalized
        else some (getTokenTypeRest ⟨RawKind.IdentifierName, c :: cs⟩))
          = some TokenType.keyword
      by_cases hc : c = env.toLower c
      · rw [if_neg (fun hcon => hcon hc), getTokenTypeRest_ident]
        simp
      · rw [if_pos hc]
        simp

end Highlight
namespace Highlight

theorem strippedTok_eq_value {tok : Token}
    (h : tok.type ≠ TokenType.uncolored → onlyLF tok.value) :
    strippedTok tok = tok.value := by
  by_cases hty : tok.type = TokenType.uncolored
  · simp [strippedTok, hty]
  · simp [strippedTok, hty, normalizeNewlines_of_onlyLF (h hty)]

theorem highlight_forceColor {env : Env} {raw : List RawToken}
    {code : List Char} {st : Bool} (hne : code ≠ []) :
    highlight env raw code true st
      = (highlightTokens (getDefs true) env raw, st) := by
  simp [highlight, hne]

theorem bracketTest_iff (v : List Char) :
    bracketTest v = true ↔ v ∈ [['('], [')'], ['['], [']'], ['{'], ['}']] := by
  match v with
  | [] => simp [bracketTest]
  | [c] => simp [bracketTest]
  | c1 :: c2 :: rest => simp [bracketTest]

/-- Claim C2: under `forceColor`, the enabled flag of the color library is
saved,
forced to `true` while the renderer runs (the styles are the
`getDefs true` ones), and restored to its saved value on every exit path;
the outcome of the renderer — success or failure — is propagated
unchanged. -/
theorem claim_C2 (env : Env) (raw : List RawToken) (code : List Char)
    (st : Bool) (hne : code ≠ []) :
    highlight env raw code true st
      = (highlightTokens (getDefs true) env raw, st) := by
  simp [highlight, hne]

/-- Witness for claim C2 at a concrete input on which the renderer fails
(an empty identifier token makes the classifier throw): the failure is
propagated (`none`) and the flag is still restored to its prior value. -/
theorem claim_C2_witness :
    ("x".toList ≠ []) ∧
    highlight envNone [⟨RawKind.IdentifierName, []⟩] "x".toList true false
      = (none, false) := by
  refine ⟨by decide, ?_⟩
  rw [claim_C2 envNone [⟨RawKind.IdentifierName, []⟩] "x".toList false
    (by decide)]
  decide

/-- Claim C3: whenever the raw template tokens have the delimiter shape the
tokenizer guarantees and the raw token texts concatenate to the input text,
the texts of the Normalized Tokens concatenate to the input text exactly. -/
theorem claim_C3 (env : Env) (raw : List RawToken) (text : List Char)
    (toks : List Token)
    (hshape : ∀ t ∈ raw, templateShapeOK t)
    (hconcat : concatValues raw = text)
    (htoks : tokenize env raw = some toks) :
    concatToks toks = text := by
  rw [tokenize_concat hshape htoks, hconcat]

/-- Witness for claim C3 on the template literal `` `a${b}c` ``. -/
theorem claim_C3_witness :
    concatToks [⟨TokenType.string, "`a".toList⟩,
      ⟨TokenType.punctuator, "$\x7b".toList⟩,
      ⟨TokenType.uncolored, "b".toList⟩,
      ⟨TokenType.punctuator, "\x7d".toList⟩,
      ⟨TokenType.string, "c`".toList⟩] = "`a$\x7bb\x7dc`".toList :=
  claim_C3 envNone
    [⟨RawKind.TemplateHead, "`a$\x7b".toList⟩,
     ⟨RawKind.IdentifierName, "b".toList⟩,
     ⟨RawKind.TemplateTail, "\x7dc`".toList⟩]
    "`a$\x7bb\x7dc`".toList _ (by decide) (by decide) (by decide)

/-- Claim C4: an identifier-name token classifies as `keyword` exactly when
its text is a reserved keyword, a strict-mode reserved word (strict flag
set), or one of the six sometimes-keywords; `async` always classifies as
`keyword`, and `target` never does when the reserved-word predicates reject
it. -/
theorem claim_C4 :
    (∀ (env : Env) (v : List Char),
      getTokenType env ⟨RawKind.IdentifierName, v⟩ = some TokenType.keyword ↔
        (env.isKeyword v = true ∨ env.isStrictReservedWord v true = true ∨
          sometimesKeywords.contains v = true)) ∧
    (∀ env : Env,
      getTokenType env ⟨RawKind.IdentifierName, "async".toList⟩
        = some TokenType.keyword) ∧
    (∀ env : Env, env.isKeyword "target".toList = false →
      env.isStrictReservedWord "target".toList true = false →
      getTokenType env ⟨RawKind.IdentifierName, "target".toList⟩
        ≠ some TokenType.keyword) := by
  refine ⟨?_, ?_, ?_⟩
  · intro env v
    rw [getTokenType_ident_keyword_iff]
    simp only [Bool.or_eq_true]
    exact or_assoc
  · intro env
    rw [getTokenType_ident_keyword_iff]
    simp only [Bool.or_eq_true]
    exact Or.inr (by decide)
  · intro env h1 h2
    rw [Ne, getTokenType_ident_keyword_iff]
    simp only [Bool.or_eq_true, not_or]
    refine ⟨⟨?_, ?_⟩, by decide⟩
    · exact fun hcon => Bool.false_ne_true (h1.symm.trans hcon)
    · exact fun hcon => Bool.false_ne_true (h2.symm.trans hcon)

/-- Witness for claim C4, instantiating the hypotheses of its `target`
conjunct with a concrete environment that rejects `target`. -/
theorem claim_C4_witness :
    envNone.isKeyword "target".toList = false ∧
    getTokenType envNone ⟨RawKind.IdentifierName, "target".toList⟩
      ≠ some TokenType.keyword := by
  exact ⟨rfl, claim_C4.2.2 envNone rfl rfl⟩

/-- Claim C5: a non-empty identifier-name token that does not classify as
`keyword` classifies as `capitalized` exactly when its first character
differs from the lowercase conversion of that character, and as `uncolored`
otherwise. -/
theorem claim_C5 (env : Env) (c : Char) (cs : List Char)
    (hk : (env.isKeyword (c :: cs) || env.isStrictReservedWord (c :: cs) true
      || sometimesKeywords.contains (c :: cs)) = false) :
    getTokenType env ⟨RawKind.IdentifierName, c :: cs⟩ =
      some (if c = env.toLower c then TokenType.uncolored
        else TokenType.capitalized) := by
  rw [getTokenType_ident_eq, hk]
  simp only [Bool.false_eq_true, if_false]
  show (if ¬ (c = env.toLower c) then some TokenType.capitalized
      else some (getTokenTypeRest ⟨RawKind.IdentifierName, c :: cs⟩))
    = some (if c = env.toLower c then TokenType.uncolored
      else TokenType.capitalized)
  by_cases hc : c = env.toLower c
  · rw [if_neg (fun hcon => hcon hc), if_pos hc, getTokenTypeRest_ident]
  · rw [if_pos hc, if_neg hc]

/-- Witness for claim C5: `Foo` classifies as `capitalized`, `foo` as
`uncolored`, in a concrete environment where neither is keyword-like. -/
theorem claim_C5_witness :
    getTokenType envNone ⟨RawKind.IdentifierName, "Foo".toList⟩
        = some TokenType.capitalized ∧
    getTokenType envNone ⟨RawKind.IdentifierName, "foo".toList⟩
        = some TokenType.uncolored := by
  constructor
  · exact (claim_C5 envNone 'F' "oo".toList (by decide)).trans (by decide)
  · exact (claim_C5 envNone 'f' "oo".toList (by decide)).trans (by decide)

/-- Claim C6: a punctuator token classifies as `uncolored` exactly when its
text is one of the six bracket characters, every other punctuator token
classifies as `punctuator`, and a JSX-punctuator token always classifies as
`punctuator`. -/
theorem claim_C6 (env : Env) (v : List Char) :
    (getTokenType env ⟨RawKind.Punctuator, v⟩ = some TokenType.uncolored ↔
      v ∈ [['('], [')'], ['['], [']'], ['{'], ['}']]) ∧
    (v ∉ [['('], [')'], ['['], [']'], ['{'], ['}']] →
      getTokenType env ⟨RawKind.Punctuator, v⟩ = some TokenType.punctuator) ∧
    getTokenType env ⟨RawKind.JSXPunctuator, v⟩ = some TokenType.punctuator := by
  have hpunct : getTokenType env ⟨RawKind.Punctuator, v⟩
      = some (getTokenTypeRest ⟨RawKind.Punctuator, v⟩) := by
    simp [getTokenType]
  have hrest : getTokenTypeRest ⟨RawKind.Punctuator, v⟩
      = if bracketTest v then TokenType.uncolored else TokenType.punctuator := by
    by_cases hbr : bracketTest v = true
    · simp [getTokenTypeRest, hbr]
    · simp only [Bool.not_eq_true] at hbr
      simp [getTokenTypeRest, hbr]
  refine ⟨?_, ?_, ?_⟩
  · rw [hpunct, hrest, ← bracketTest_iff]
    by_cases hbr : bracketTest v = true
    · simp [hbr]
    · simp only [Bool.not_eq_true] at hbr
      simp [hbr]
  · intro hnot
    rw [← bracketTest_iff] at hnot
    simp only [Bool.not_eq_true] at hnot
    rw [hpunct, hrest, hnot]
    rfl
  · simp [getTokenType, getTokenTypeRest]

/-- Witness for claim C6: `;` classifies as `punctuator` and `(` as
`uncolored`. -/
theorem claim_C6_witness :
    getTokenType envNone ⟨RawKind.Punctuator, [';']⟩
        = some TokenType.punctuator ∧
    getTokenType envNone ⟨RawKind.Punctuator, ['(']⟩
        = some TokenType.uncolored := by
  constructor
  · exact (claim_C6 envNone [';']).2.1 (by decide)
  · exact (claim_C6 envNone ['(']).1.mpr (by decide)

end Highlight
namespace Highlight

/-- Claim C1 (counterexample): styling is not lossless for every newline
kind.  For the two-line comment `/*a\rb*/` (one raw multi-line-comment
token whose text is the whole input), stripping all escape sequences from
the forced-color output yields `/*a\nb*/` — the carriage return inside the
styled token is replaced by a line feed — and not the original text. -/
theorem claim_C1_counterexample :
    concatValues [⟨RawKind.MultiLineComment, "/*a\rb*/".toList⟩]
        = "/*a\rb*/".toList ∧
    (highlight envNone [⟨RawKind.MultiLineComment, "/*a\rb*/".toList⟩]
        "/*a\rb*/".toList true false).1.map stripAnsi
      ≠ some "/*a\rb*/".toList ∧
    (highlight envNone [⟨RawKind.MultiLineComment, "/*a\rb*/".toList⟩]
        "/*a\rb*/".toList true false).1.map stripAnsi
      = some "/*a\nb*/".toList := by
  refine ⟨by decide, by decide, by decide⟩

/-- Claim C1 (amended): for raw tokens of the guaranteed template shape
whose texts concatenate to an escape-free input text, stripping all escape
sequences from `highlight(T, forceColor)` yields the text with each
newline-like boundary inside styled (non-`uncolored`) tokens normalized to
`\n`; in particular it yields exactly T whenever the text of every styled
token
contains no `\r`, U+2028 or U+2029. -/
theorem claim_C1_amended (env : Env) (raw : List RawToken) (code : List Char)
    (toks : List Token) (st : Bool)
    (hshape : ∀ t ∈ raw, templateShapeOK t)
    (hconcat : concatValues raw = code)
    (htoks : tokenize env raw = some toks)
    (hesc : '\x1b' ∉ code)
    (hne : code ≠ []) :
    ∃ r, highlight env raw code true st = (some r, st) ∧
      stripAnsi r = (toks.map strippedTok).flatten ∧
      ((∀ tok ∈ toks, tok.type ≠ TokenType.uncolored → onlyLF tok.value) →
        stripAnsi r = code) := by
  have hescToks : ∀ tok ∈ toks, '\x1b' ∉ tok.value := by
    intro tok htok hc
    rcases mem_tokenize_chars htoks tok htok _ hc with hin | h | h | h
    · rw [hconcat] at hin
      exact hesc hin
    · exact absurd h (by decide)
    · exact absurd h (by decide)
    · exact absurd h (by decide)
  refine ⟨(toks.map (renderToken (getDefs true))).flatten, ?_, ?_, ?_⟩
  · rw [highlight_forceColor hne]
    simp [highlightTokens, htoks]
  · exact strip_render_flatten hescToks
  · intro honly
    rw [strip_render_flatten hescToks]
    have hmap : toks.map strippedTok = toks.map Token.value := by
      apply List.map_congr_left
      intro tok htok
      exact strippedTok_eq_value (honly tok htok)
    rw [hmap]
    show concatToks toks = code
    rw [tokenize_concat hshape htoks, hconcat]

/-- Witness for the amended claim C1 on the comment `/*a\nb*/`, whose only
newline is a plain line feed: stripping recovers the input exactly. -/
theorem claim_C1_amended_witness :
    ∃ r, highlight envNone [⟨RawKind.MultiLineComment, "/*a\nb*/".toList⟩]
        "/*a\nb*/".toList true false = (some r, false) ∧
      stripAnsi r = "/*a\nb*/".toList := by
  obtain ⟨r, h1, h2, h3⟩ := claim_C1_amended envNone
    [⟨RawKind.MultiLineComment, "/*a\nb*/".toList⟩] "/*a\nb*/".toList
    [⟨TokenType.comment, "/*a\nb*/".toList⟩] false
    (by decide) (by decide) (by decide) (by decide) (by decide)
  exact ⟨r, h1, h3 (by decide)⟩

/-- Claim C7: the per-token expansion of the Normalizer — a template head of
text t yields `(string, t minus its last two characters)` then
`(punctuator, dollar-brace)`; a template middle yields
`(punctuator, close-brace)`, `(string, t minus its first and last two
characters)`, `(punctuator, dollar-brace)`; a template tail yields
`(punctuator, close-brace)` then `(string, t minus its first character)`;
every other token yields exactly one token with the category given by the
classifier
and the unchanged text. -/
theorem claim_C7 (env : Env) (t : RawToken) :
    tokenizeTok env t =
      match t.kind with
      | RawKind.TemplateHead =>
        some [⟨TokenType.string, t.value.dropLast.dropLast⟩,
              ⟨TokenType.punctuator, ['$', '{']⟩]
      | RawKind.TemplateMiddle =>
        some [⟨TokenType.punctuator, ['}']⟩,
              ⟨TokenType.string, t.value.tail.dropLast.dropLast⟩,
              ⟨TokenType.punctuator, ['$', '{']⟩]
      | RawKind.TemplateTail =>
        some [⟨TokenType.punctuator, ['}']⟩,
              ⟨TokenType.string, t.value.tail⟩]
      | _ => (getTokenType env t).map fun ty => [⟨ty, t.value⟩] := by
  have hdl : ∀ v : List Char, v.dropLast.dropLast = v.take (v.length - 2) := by
    intro v
    rw [List.dropLast_eq_take, List.dropLast_eq_take, List.length_take,
      List.take_take]
    congr 1
    omega
  rcases t with ⟨kind, v⟩
  cases kind
  case TemplateHead =>
    simp only [tokenizeTok, hdl]
  case TemplateMiddle =>
    simp only [tokenizeTok, hdl, ← List.drop_one, List.length_drop]
    rfl
  case TemplateTail =>
    simp only [tokenizeTok, ← List.drop_one]
  all_goals rfl

end Highlight
namespace Highlight

/-- Claim C8: when the category of a normalized token is present in the style
mapping and its text contains a newline-like boundary, the rendered
fragment is the style function applied independently to each
newline-separated segment, the styled segments rejoined with a plain `\n`;
no segment handed to the style function contains a newline-like
character. -/
theorem claim_C8 (tok : Token) (f : List Char → List Char) (enabled : Bool)
    (hdef : getDefs enabled tok.type = some f)
    (_hnl : ∃ c ∈ tok.value, isNewlineChar c = true) :
    renderToken (getDefs enabled) tok
        = joinWithNewline ((splitNewlines tok.value).map f) ∧
    ∀ seg ∈ splitNewlines tok.value, ∀ c ∈ seg, isNewlineChar c = false := by
  constructor
  · simp [renderToken, hdef]
  · exact fun seg hseg => not_newline_of_mem_splitNewlines hseg

/-- Witness for claim C8: the two-line comment `/* a\nb */` renders as two
independently styled segments separated by a plain, unstyled line feed. -/
theorem claim_C8_witness :
    renderToken (getDefs true) ⟨TokenType.comment, "/* a\nb */".toList⟩
      = runStyle kgrey true "/* a".toList
          ++ '\n' :: runStyle kgrey true "b */".toList :=
  ((claim_C8 ⟨TokenType.comment, "/* a\nb */".toList⟩ (runStyle kgrey true)
      true rfl ⟨'\n', by decide, by decide⟩).1).trans (by decide)

/-- Claim C9: `highlight` is the identity in two cases — on the empty
string for every option and tokenizer output, without consulting the
tokens; and on every text when the enabled flag of the color library is false
and forceColor is not set. -/
theorem claim_C9 :
    (∀ (env : Env) (raw : List RawToken) (forceColor st : Bool),
      highlight env raw [] forceColor st = (some [], st)) ∧
    (∀ (env : Env) (raw : List RawToken) (code : List Char),
      highlight env raw code false false = (some code, false)) := by
  constructor
  · intro env raw forceColor st
    rfl
  · intro env raw code
    by_cases h : code = []
    · subst h; rfl
    · simp [highlight, h]

/-- Claim C10: with `forceColor` set, the result of `highlight` does not
depend on the ambient enabled flag of the color library at call time. -/
theorem claim_C10 (env : Env) (raw : List RawToken) (code : List Char)
    (st1 st2 : Bool) :
    (highlight env raw code true st1).1 = (highlight env raw code true st2).1 := by
  by_cases h : code = []
  · subst h; rfl
  · simp [highlight, h]

end Highlight
